import Mathlib

/-!
Verification of the CTC decoding pipeline of `SpeechT5CTCTokenizer`
(`src/transformers/models/speecht5/tokenization_speecht5.py`).

The development embeds the collapser (`groupby`-based run-length grouping in
`convert_tokens_to_string`), the offset mapper (`_compute_offsets`), the word
aggregator (`_get_word_offsets`), the special-token filtering loop of
`_decode`, and the batching logic of `batch_decode` as executable Lean
functions, and proves the specified properties about them.

Python strings are modelled as Lean `String`; Python `str.strip()` and
`str.lower()` are modelled at the character-list level (`pyStrip`, `pyLower`);
fallible code returns `Except String`.
-/

/-- Character offset record: `{"char": t, "start_offset": s, "end_offset": e}`
as built by `_compute_offsets`. -/
structure CharOffset where
  char : String
  start_offset : Nat
  end_offset : Nat
deriving DecidableEq, Repr

/-- Word offset record: `{"word": w, "start_offset": s, "end_offset": e}`
as built by `_get_word_offsets`. -/
structure WordOffset where
  word : String
  start_offset : Nat
  end_offset : Nat
deriving DecidableEq, Repr

/-- Tokenizer configuration fields used by the decode pipeline:
`pad_token` (reused as the CTC blank), `word_delimiter_token`,
`replace_word_delimiter_char`, and `do_lower_case`. -/
structure Config where
  pad_token : String
  word_delimiter_token : String
  replace_word_delimiter_char : String
  do_lower_case : Bool
deriving DecidableEq, Repr

/-- Default configuration from the `__init__` defaults:
`pad_token="<pad>"`, `word_delimiter_token="|"`,
`replace_word_delimiter_char=" "`, `do_lower_case=False`. -/
def defaultConfig : Config :=
  { pad_token := "<pad>", word_delimiter_token := "|",
    replace_word_delimiter_char := " ", do_lower_case := false }

/-- Result dictionary of `convert_tokens_to_string`:
`{"text": ..., "char_offsets": ..., "word_offsets": ...}`.  A Python `None`
is `none`; a present (possibly empty) list is `some`. -/
structure CTSResult where
  text : String
  char_offsets : Option (List CharOffset)
  word_offsets : Option (List WordOffset)
deriving DecidableEq, Repr

/-- Run-length encoding of consecutive equal tokens, the semantics of
`itertools.groupby` as used on line 227:
`zip(*((token, len(list(group_iter))) for token, group_iter in groupby(tokens)))`. -/
def rle : List String → List (String × Nat)
  | [] => []
  | t :: rest =>
    match rle rest with
    | [] => [(t, 1)]
    | (u, n) :: rs => if t = u then (t, n + 1) :: rs else (t, 1) :: (u, n) :: rs

/-- Collapser of `convert_tokens_to_string` (lines 226-230): with
`group_tokens` the run-length encoding, otherwise every token kept with
repetition count 1. -/
def collapse (group_tokens : Bool) (tokens : List String) : List String × List Nat :=
  if group_tokens then ((rle tokens).map Prod.fst, (rle tokens).map Prod.snd)
  else (tokens, tokens.map fun _ => 1)

/-- Inclusive cumulative sum, the semantics of `np.asarray(...).cumsum()`
on line 279. -/
def cumsum : List Nat → List Nat
  | [] => []
  | r :: rest => r :: (cumsum rest).map (r + ·)

/-- Offset computation of `_compute_offsets` before the blank filter
(lines 279-284): `end_indices = cumsum(char_repetitions)`,
`start_indices = concatenate(([0], end_indices[:-1]))`, then
`zip(chars, start_indices, end_indices)` (`zip` truncates to the shortest). -/
def computeOffsetsRaw (char_repetitions : List Nat) (chars : List String) :
    List CharOffset :=
  let end_indices := cumsum char_repetitions
  let start_indices := 0 :: end_indices.dropLast
  List.zipWith (fun t (se : Nat × Nat) => ⟨t, se.1, se.2⟩) chars
    (start_indices.zip end_indices)

/-- Full `_compute_offsets` (lines 275-288): offset computation followed by
the CTC-blank filter `filter(lambda o: o["char"] != ctc_token, offsets)`. -/
def computeOffsets (char_repetitions : List Nat) (chars : List String)
    (ctc_token : String) : List CharOffset :=
  (computeOffsetsRaw char_repetitions chars).filter (fun o => o.char != ctc_token)

/-- Processed symbol list of `convert_tokens_to_string` (lines 232-238):
filter out the pad token, then substitute the word-delimiter token by
`replace_word_delimiter_char`. -/
def processedChars (cfg : Config) (chars : List String) : List String :=
  (chars.filter (fun c => c != cfg.pad_token)).map
    (fun c => if c = cfg.word_delimiter_token then cfg.replace_word_delimiter_char else c)

/-- Model of Python `str.strip()`: remove leading and trailing whitespace
characters. -/
def pyStrip (s : String) : String :=
  ⟨List.rdropWhile (·.isWhitespace) (s.data.dropWhile (·.isWhitespace))⟩

/-- Model of Python `str.lower()`: lowercase every character. -/
def pyLower (s : String) : String :=
  ⟨s.data.map Char.toLower⟩

/-- Scan state of `_get_word_offsets` (lines 294-299): accumulated word
offsets, the `last_state` string (`"SPACE"` or `"WORD"`), and the pending
`word`, `start_offset`, `end_offset`. -/
structure WordState where
  word_offsets : List WordOffset
  last_state : String
  word : String
  start_offset : Nat
  end_offset : Nat
deriving Repr

/-- One iteration of the loop body of `_get_word_offsets` (lines 300-319). -/
def wordStep (word_delimiter_char : String) (st : WordState) (offset : CharOffset) :
    WordState :=
  let char := offset.char
  let state := if char = word_delimiter_char then "SPACE" else "WORD"
  if state = st.last_state then
    { st with end_offset := offset.end_offset, word := st.word ++ char,
              last_state := state }
  else if state = "SPACE" then
    { st with
        word_offsets := st.word_offsets ++ [⟨st.word, st.start_offset, st.end_offset⟩],
        last_state := state }
  else
    { st with start_offset := offset.start_offset, end_offset := offset.end_offset,
              word := char, last_state := state }

/-- Final flush of `_get_word_offsets` (lines 320-321): if scanning ended in
the `"WORD"` state the pending word is appended. -/
def finalizeWords (st : WordState) : List WordOffset :=
  if st.last_state = "WORD" then
    st.word_offsets ++ [⟨st.word, st.start_offset, st.end_offset⟩]
  else st.word_offsets

/-- Word aggregator `_get_word_offsets` (lines 290-323): fold the loop body
over the character offsets starting from `last_state = "SPACE"`, `word = ""`,
`start_offset = 0`, `end_offset = 0`, then flush. -/
def getWordOffsets (offsets : List CharOffset) (word_delimiter_char : String) :
    List WordOffset :=
  finalizeWords (offsets.foldl (wordStep word_delimiter_char) ⟨[], "SPACE", "", 0, 0⟩)

/-- `convert_tokens_to_string` (lines 212-273).  The `ValueError` raised on a
`char_offsets`/`processed_chars` length mismatch (lines 245-251) is modelled
by the `Except.error` branch. -/
def convertTokensToString (cfg : Config) (tokens : List String)
    (group_tokens spaces_between_special_tokens output_char_offsets
      output_word_offsets : Bool) : Except String CTSResult :=
  if tokens.length = 0 then
    .ok { text := "", char_offsets := some [], word_offsets := some [] }
  else
    let chars := (collapse group_tokens tokens).1
    let char_repetitions := (collapse group_tokens tokens).2
    let processed_chars := processedChars cfg chars
    let join_char := if spaces_between_special_tokens then " " else ""
    let string0 := pyStrip (String.intercalate join_char processed_chars)
    let string := if cfg.do_lower_case then pyLower string0 else string0
    if output_char_offsets || output_word_offsets then
      let char_offsets := computeOffsets char_repetitions chars cfg.pad_token
      if char_offsets.length ≠ processed_chars.length then
        .error "ValueError: char_offsets and processed_tokens have to be of the same length"
      else
        let char_offsets2 :=
          List.zipWith (fun (o : CharOffset) (c : String) => { o with char := c })
            char_offsets processed_chars
        let word_offsets :=
          if output_word_offsets then
            some (getWordOffsets char_offsets2 cfg.replace_word_delimiter_char)
          else none
        let char_offsets3 := if output_char_offsets then some char_offsets2 else none
        .ok { text := string, char_offsets := char_offsets3, word_offsets := word_offsets }
    else
      .ok { text := string, char_offsets := none, word_offsets := none }

/-- Specification-side view of the word aggregator: the maximal chunks of
contiguous character offsets whose symbol differs from the delimiter,
in order, with delimiter entries discarded. -/
def splitChunks (delim : String) : List CharOffset → List (List CharOffset)
  | [] => []
  | o :: rest =>
    if o.char = delim then splitChunks delim rest
    else (o :: rest.takeWhile (fun x => x.char != delim)) ::
      splitChunks delim (rest.dropWhile (fun x => x.char != delim))
termination_by l => l.length
decreasing_by
· simp only [List.length_cons]
  omega
· simp only [List.length_cons]
  exact Nat.lt_succ_of_le ((List.dropWhile_sublist _).length_le)

/-- Specification-side word offset of one chunk: the concatenation of the
constituent symbols, the start offset of the first constituent, and the end
offset of the last constituent. -/
def chunkWord (c : List CharOffset) : WordOffset :=
  { word := String.join (c.map (·.char)),
    start_offset := ((c.head?).map (·.start_offset)).getD 0,
    end_offset := ((c.getLast?).map (·.end_offset)).getD 0 }

/-- Maximal chunks of contiguous non-delimiter symbols of a symbol list
(`splitChunks` transported to the symbol level). -/
def symSplit (delim : String) : List String → List (List String)
  | [] => []
  | s :: rest =>
    if s = delim then symSplit delim rest
    else (s :: rest.takeWhile (fun x => x != delim)) ::
      symSplit delim (rest.dropWhile (fun x => x != delim))
termination_by l => l.length
decreasing_by
· simp only [List.length_cons]
  omega
· simp only [List.length_cons]
  exact Nat.lt_succ_of_le ((List.dropWhile_sublist _).length_le)

/-- Collapse every run of consecutive delimiter symbols to a single
delimiter symbol (the "runs of delimiters collapsed" part of whitespace
normalization). -/
def collapseDelims (delim : String) : List String → List String
  | [] => []
  | [x] => [x]
  | x :: y :: rest =>
    if x = delim ∧ y = delim then collapseDelims delim (y :: rest)
    else x :: collapseDelims delim (y :: rest)

/-- Whitespace normalization of a symbol sequence: collapse runs of
delimiter symbols, then remove leading and trailing delimiter symbols. -/
def normalizeSyms (delim : String) (syms : List String) : List String :=
  List.rdropWhile (fun s => s == delim)
    (List.dropWhile (fun s => s == delim) (collapseDelims delim syms))

/-- Python runtime value restricted to the two types compared by the
special-token filtering loop of `_decode`: strings (tokens) and integers
(ids from `all_special_ids`). -/
inductive PyVal where
  | str : String → PyVal
  | int : Int → PyVal
deriving DecidableEq, Repr

/-- Python `==` on such values: equality within one type, and `False`
between a string and an integer (Python `str.__eq__(int)` yields
`NotImplemented`, so `==` falls back to identity and returns `False`). -/
def pyEq : PyVal → PyVal → Bool
  | .str a, .str b => a == b
  | .int a, .int b => a == b
  | _, _ => false

/-- Python `in` on a list of such values: elementwise `==`. -/
def pyMem (v : PyVal) (l : List PyVal) : Bool :=
  l.any (pyEq v)

/-- Special-token filtering loop of `_decode` (lines 347-351):
`result = []`, and for each `token` in `filtered_tokens`, skip it when
`skip_special_tokens and token in self.all_special_ids`, else append it.
The membership test compares the token string with integer ids. -/
def decodeSpecialFilter (skip_special_tokens : Bool) (all_special_ids : List Int)
    (filtered_tokens : List String) : List String :=
  filtered_tokens.filter
    (fun token =>
      !(skip_special_tokens && pyMem (PyVal.str token) (all_special_ids.map PyVal.int)))

/-- Structured decode result (`SpeechT5CTCTokenizerOutput`) for a single
sequence. -/
structure TokenizerOutput where
  text : String
  char_offsets : Option (List CharOffset)
  word_offsets : Option (List WordOffset)
deriving DecidableEq, Repr

/-- Return value of `decode`/`_decode`: a plain string when no offsets were
requested, a structured output otherwise. -/
inductive DecodeOut where
  | plain : String → DecodeOut
  | structured : TokenizerOutput → DecodeOut
deriving DecidableEq, Repr

/-- View of a decode result as a structured output (`d[k]` access in the
batch transpose; a plain string result carries no offset fields). -/
def asOutput : DecodeOut → TokenizerOutput
  | .plain t => ⟨t, none, none⟩
  | .structured o => o

/-- Batched structured output: the dict-of-lists produced by the transpose
`{k: [d[k] for d in batch_decoded] for k in batch_decoded[0]}`. -/
structure BatchOutput where
  text : List String
  char_offsets : List (Option (List CharOffset))
  word_offsets : List (Option (List WordOffset))
deriving DecidableEq, Repr

/-- Transpose of a list of structured outputs into a `BatchOutput`. -/
def transposeBatch (batch : List TokenizerOutput) : BatchOutput :=
  { text := batch.map (·.text),
    char_offsets := batch.map (·.char_offsets),
    word_offsets := batch.map (·.word_offsets) }

/-- Return value of `batch_decode`: either the plain list of per-sequence
results, or the transposed structured output. -/
inductive BatchResult where
  | strs : List DecodeOut → BatchResult
  | output : BatchOutput → BatchResult
deriving DecidableEq, Repr

/-- `batch_decode` (lines 429-444), parameterized by the per-sequence
`decode` function it maps over `sequences`.  When offsets are requested the
transpose reads `batch_decoded[0]`, which raises `IndexError` on an empty
batch; this is the `Except.error` branch. -/
def batchDecode (decodeFn : List Int → DecodeOut)
    (output_char_offsets output_word_offsets : Bool)
    (sequences : List (List Int)) : Except String BatchResult :=
  let batch_decoded := sequences.map decodeFn
  if output_char_offsets || output_word_offsets then
    match batch_decoded with
    | [] => .error "IndexError: list index out of range"
    | first :: rest => .ok (.output (transposeBatch ((first :: rest).map asOutput)))
  else
    .ok (.strs batch_decoded)

/-- Helper: membership of a string value in a list of integer values under
Python equality is always false. -/
theorem pyMem_str_int (t : String) (ids : List Int) :
    pyMem (PyVal.str t) (ids.map PyVal.int) = false := by
  induction ids with
  | nil => rfl
  | cons i rest ih =>
    simp only [List.map_cons, pyMem, List.any_cons]
    simp only [pyMem] at ih
    simp [pyEq, ih]

/-- C9: the special-token filtering loop inside `_decode` is the identity for
every token list and either value of `skip_special_tokens`, because the
membership test compares a token string against integer ids and is therefore
always false. -/
theorem decodeSpecialFilter_identity (skip_special_tokens : Bool)
    (all_special_ids : List Int) (filtered_tokens : List String) :
    decodeSpecialFilter skip_special_tokens all_special_ids filtered_tokens
      = filtered_tokens := by
  unfold decodeSpecialFilter
  rw [List.filter_eq_self]
  intro token _
  simp [pyMem_str_int]

/-- C10: `batch_decode` on an empty batch raises `IndexError` (reading
`batch_decoded[0]`) when character or word offsets are requested, and
returns the empty list when neither is requested. -/
theorem batchDecode_empty (decodeFn : List Int → DecodeOut)
    (output_char_offsets output_word_offsets : Bool) :
    batchDecode decodeFn output_char_offsets output_word_offsets []
      = (if output_char_offsets || output_word_offsets then
           Except.error "IndexError: list index out of range"
         else Except.ok (BatchResult.strs [])) := by
  cases output_char_offsets <;> cases output_word_offsets <;> rfl

/-- C6: decoding the empty token sequence yields
`{"text": "", "char_offsets": [], "word_offsets": []}` and no error,
whatever the four flags are. -/
theorem convertTokensToString_empty (cfg : Config)
    (group_tokens spaces_between_special_tokens output_char_offsets
      output_word_offsets : Bool) :
    convertTokensToString cfg [] group_tokens spaces_between_special_tokens
        output_char_offsets output_word_offsets
      = Except.ok { text := "", char_offsets := some [], word_offsets := some [] } := rfl

/-- C1 counterexample: on the symbol sequence
`["H","H","E","L","L","O","|","|","W"]` the pipeline does not produce the
text `"HELLO W"` claimed by the specification: the CTC collapser merges the
two consecutive `"L"` symbols, so the text is `"HELO W"`. -/
theorem c1_decode_example_counterexample :
    ((convertTokensToString defaultConfig ["H","H","E","L","L","O","|","|","W"]
        true false true true).toOption.map CTSResult.text ≠ some "HELLO W")
    ∧ ((convertTokensToString defaultConfig ["H","H","E","L","L","O","|","|","W"]
        true false true true).toOption.map CTSResult.text = some "HELO W") := by
  constructor
  · decide
  · decide

/-- C1 (amended): decoding `["H","H","E","L","L","O","|","|","W"]` with no
blank present, delimiter `"|"` and `group_tokens = true` produces the runs
`[(H,2),(E,1),(L,2),(O,1),(|,2),(W,1)]`, the pre-substitution character
offsets `[(H,0,2),(E,2,3),(L,3,5),(O,5,6),(|,6,8),(W,8,9)]`, the final text
`"HELO W"`, the returned character offsets with the delimiter substituted by
`" "`, and the word offsets `[{HELO,0,6},{W,8,9}]`. -/
theorem c1_decode_example :
    rle ["H","H","E","L","L","O","|","|","W"]
      = [("H",2),("E",1),("L",2),("O",1),("|",2),("W",1)]
    ∧ computeOffsets [2,1,2,1,2,1] ["H","E","L","O","|","W"] "<pad>"
      = [⟨"H",0,2⟩,⟨"E",2,3⟩,⟨"L",3,5⟩,⟨"O",5,6⟩,⟨"|",6,8⟩,⟨"W",8,9⟩]
    ∧ (convertTokensToString defaultConfig ["H","H","E","L","L","O","|","|","W"]
        true false true true).toOption
      = some { text := "HELO W",
               char_offsets := some [⟨"H",0,2⟩,⟨"E",2,3⟩,⟨"L",3,5⟩,⟨"O",5,6⟩,
                                     ⟨" ",6,8⟩,⟨"W",8,9⟩],
               word_offsets := some [⟨"HELO",0,6⟩,⟨"W",8,9⟩] } := by
  refine ⟨by decide, by decide, by decide⟩

/-- Helper: the run-length encoding of the empty list only. -/
theorem rle_eq_nil_iff (l : List String) : rle l = [] ↔ l = [] := by
  cases l with
  | nil => simp [rle]
  | cons t rest =>
    simp only [rle]
    cases h : rle rest with
    | nil => simp
    | cons p rs =>
      obtain ⟨u, n⟩ := p
      by_cases htu : t = u <;> simp [htu]

/-- Helper: repetition counts of the run-length encoding sum to the input
length. -/
theorem rle_sum (l : List String) : ((rle l).map Prod.snd).sum = l.length := by
  induction l with
  | nil => rfl
  | cons t rest ih =>
    simp only [rle]
    cases h : rle rest with
    | nil =>
      rw [h] at ih
      simp at ih
      simp [← ih]
    | cons p rs =>
      obtain ⟨u, n⟩ := p
      rw [h] at ih
      simp only [List.map_cons, List.sum_cons] at ih
      by_cases htu : t = u <;> simp [htu, List.sum_cons, ← ih] <;> omega

/-- Helper: expanding each run back to `count` copies of its symbol recovers
the input. -/
theorem rle_flatten (l : List String) :
    ((rle l).map (fun p => List.replicate p.2 p.1)).flatten = l := by
  induction l with
  | nil => rfl
  | cons t rest ih =>
    simp only [rle]
    cases h : rle rest with
    | nil =>
      rw [h] at ih
      simp at ih
      simp [← ih]
    | cons p rs =>
      obtain ⟨u, n⟩ := p
      rw [h] at ih
      by_cases htu : t = u
      · subst htu
        dsimp only
        rw [if_pos rfl]
        simp only [List.map_cons, List.flatten_cons] at ih ⊢
        simp [List.replicate_succ, ih]
      · dsimp only
        rw [if_neg htu]
        simp [List.flatten_cons] at ih ⊢
        exact ih

/-- Helper: no two adjacent runs of the run-length encoding share a symbol. -/
theorem rle_chain' (l : List String) :
    List.Chain' (fun p q : String × Nat => p.1 ≠ q.1) (rle l) := by
  induction l with
  | nil => simp [rle]
  | cons t rest ih =>
    simp only [rle]
    cases h : rle rest with
    | nil => simp
    | cons p rs =>
      obtain ⟨u, n⟩ := p
      rw [h] at ih
      by_cases htu : t = u
      · subst htu
        dsimp only
        rw [if_pos rfl]
        rw [List.chain'_cons'] at ih ⊢
        simpa using ih
      · dsimp only
        rw [if_neg htu]
        rw [List.chain'_cons]
        exact ⟨htu, ih⟩

/-- Helper: every repetition count of the run-length encoding is positive. -/
theorem rle_pos (l : List String) : ∀ p ∈ rle l, 0 < p.2 := by
  induction l with
  | nil => simp [rle]
  | cons t rest ih =>
    simp only [rle]
    cases h : rle rest with
    | nil => simp
    | cons p rs =>
      obtain ⟨u, n⟩ := p
      rw [h] at ih
      by_cases htu : t = u
      · subst htu
        dsimp only
        rw [if_pos rfl]
        intro q hq
        rcases List.mem_cons.mp hq with hq | hq
        · subst hq; simp
        · exact ih q (List.mem_cons_of_mem _ hq)
      · dsimp only
        rw [if_neg htu]
        intro q hq
        rcases List.mem_cons.mp hq with hq | hq
        · subst hq; simp
        · exact ih q hq

/-- C3: for every token sequence and either collapser mode, the repetition
counts sum to the input length; with `group_tokens` the result is the maximal
run-length encoding (adjacent runs have distinct symbols, positive counts,
and expanding the runs recovers the input); without it every count is 1 and
the symbols are the input unchanged. -/
theorem collapse_invariants (tokens : List String) (group_tokens : Bool) :
    ((collapse group_tokens tokens).2).sum = tokens.length
    ∧ (group_tokens = true →
        (collapse group_tokens tokens)
            = ((rle tokens).map Prod.fst, (rle tokens).map Prod.snd)
        ∧ List.Chain' (fun p q : String × Nat => p.1 ≠ q.1) (rle tokens)
        ∧ ((rle tokens).map (fun p => List.replicate p.2 p.1)).flatten = tokens
        ∧ (∀ p ∈ rle tokens, 0 < p.2))
    ∧ (group_tokens = false →
        (collapse group_tokens tokens).1 = tokens
        ∧ ∀ n ∈ (collapse group_tokens tokens).2, n = 1) := by
  refine ⟨?_, ?_, ?_⟩
  · cases group_tokens
    · simp [collapse]
    · simpa [collapse] using rle_sum tokens
  · intro hg; subst hg
    exact ⟨by simp [collapse], rle_chain' tokens, rle_flatten tokens, rle_pos tokens⟩
  · intro hg; subst hg
    constructor
    · simp [collapse]
    · intro n hn
      simp [collapse] at hn
      exact hn.2

/-- C3 witness: the collapser invariants instantiated on a concrete token
sequence. -/
theorem collapse_invariants_witness :
    ((collapse true ["a","a","b","a"]).2).sum = 4
    ∧ List.Chain' (fun p q : String × Nat => p.1 ≠ q.1) (rle ["a","a","b","a"])
    ∧ ((collapse false ["a","a","b","a"]).1 = ["a","a","b","a"]) :=
  ⟨(collapse_invariants ["a","a","b","a"] true).1,
   ((collapse_invariants ["a","a","b","a"] true).2.1 rfl).2.1,
   ((collapse_invariants ["a","a","b","a"] false).2.2 rfl).1⟩

/-- Helper: the cumulative sum preserves length. -/
theorem cumsum_length (l : List Nat) : (cumsum l).length = l.length := by
  induction l with
  | nil => rfl
  | cons r rest ih => simp [cumsum, ih]

/-- Helper: the i-th entry of the cumulative sum is the sum of the first
i+1 entries. -/
theorem cumsum_get (l : List Nat) (i : Nat) (hi : i < (cumsum l).length) :
    (cumsum l).get ⟨i, hi⟩ = (l.take (i + 1)).sum := by
  induction l generalizing i with
  | nil => simp [cumsum] at hi
  | cons r rest ih =>
    cases i with
    | zero => simp [cumsum]
    | succ j =>
      have hj : j < (cumsum rest).length := by
        simp [cumsum] at hi
        simpa using hi
      simp only [cumsum, List.get_eq_getElem, List.getElem_cons_succ, List.getElem_map]
      have := ih j hj
      simp only [List.get_eq_getElem] at this
      rw [this]
      simp [List.sum_cons]

/-- Helper: the raw offset list has one entry per run when the symbol and
count lists have equal length. -/
theorem computeOffsetsRaw_length (reps : List Nat) (chars : List String)
    (hlen : chars.length = reps.length) :
    (computeOffsetsRaw reps chars).length = reps.length := by
  cases reps with
  | nil =>
    have : chars = [] := List.eq_nil_of_length_eq_zero hlen
    subst this
    rfl
  | cons r rest =>
    simp only [computeOffsetsRaw]
    rw [List.length_zipWith, List.length_zip]
    simp only [List.length_cons, cumsum_length, List.length_dropLast, hlen]
    omega

/-- Helper: the i-th raw offset carries the i-th symbol, starts at the sum of
the first i counts and ends at the sum of the first i+1 counts. -/
theorem computeOffsetsRaw_get (reps : List Nat) (chars : List String)
    (hlen : chars.length = reps.length) (i : Nat)
    (hi : i < (computeOffsetsRaw reps chars).length) :
    (computeOffsetsRaw reps chars).get ⟨i, hi⟩ =
      ⟨chars.get ⟨i, by rw [hlen, ← computeOffsetsRaw_length reps chars hlen]; exact hi⟩,
       (reps.take i).sum, (reps.take (i + 1)).sum⟩ := by
  have hlen0 := computeOffsetsRaw_length reps chars hlen
  have hir : i < reps.length := hlen0 ▸ hi
  simp only [computeOffsetsRaw, List.get_eq_getElem]
  rw [List.getElem_zipWith]
  rw [List.getElem_zip]
  simp only [CharOffset.mk.injEq]
  refine ⟨trivial, ?_, ?_⟩
  · cases i with
    | zero => simp
    | succ j =>
      simp only [List.getElem_cons_succ]
      rw [List.getElem_dropLast]
      have hj : j < (cumsum reps).length := by
        rw [cumsum_length]
        omega
      have := cumsum_get reps j hj
      simp only [List.get_eq_getElem] at this
      rw [this]
  · have := cumsum_get reps i (by rw [cumsum_length]; exact hir)
    simp only [List.get_eq_getElem] at this
    rw [this]

/-- Helper: every index below the total sum falls into one of the half-open
cumulative-sum intervals. -/
theorem exists_take_interval (reps : List Nat) (k : Nat) (hk : k < reps.sum) :
    ∃ i, i < reps.length ∧ (reps.take i).sum ≤ k ∧ k < (reps.take (i + 1)).sum := by
  induction reps generalizing k with
  | nil => simp at hk
  | cons r rest ih =>
    by_cases hkr : k < r
    · refine ⟨0, by simp, by simp, ?_⟩
      simpa using hkr
    · have hk2 : k - r < rest.sum := by
        simp only [List.sum_cons] at hk
        omega
      obtain ⟨i, hi, h1, h2⟩ := ih (k - r) hk2
      refine ⟨i + 1, by simpa using hi, ?_, ?_⟩
      · simp only [List.take_succ_cons, List.sum_cons]
        omega
      · simp only [List.take_succ_cons, List.sum_cons]
        omega

/-- C4: for every run sequence (symbols and counts of equal length, counts
summing to the original sequence length n), the raw offsets computed before
blank-filtering end at the inclusive cumulative sums, start at the previous
end (0 for the first), are contiguous between adjacent entries, and their
half-open intervals cover exactly the range from 0 to n. -/
theorem computeOffsetsRaw_structure (reps : List Nat) (chars : List String)
    (n : Nat) (hlen : chars.length = reps.length) (hsum : reps.sum = n) :
    (computeOffsetsRaw reps chars).length = reps.length
    ∧ (∀ i, ∀ hi : i < (computeOffsetsRaw reps chars).length,
        ((computeOffsetsRaw reps chars).get ⟨i, hi⟩).end_offset = (reps.take (i + 1)).sum)
    ∧ (∀ i, ∀ hi : i < (computeOffsetsRaw reps chars).length,
        ((computeOffsetsRaw reps chars).get ⟨i, hi⟩).start_offset = (reps.take i).sum)
    ∧ (∀ i, ∀ hi1 : i + 1 < (computeOffsetsRaw reps chars).length,
        ((computeOffsetsRaw reps chars).get ⟨i, Nat.lt_of_succ_lt hi1⟩).end_offset
          = ((computeOffsetsRaw reps chars).get ⟨i + 1, hi1⟩).start_offset)
    ∧ (∀ i, ∀ hi : i < (computeOffsetsRaw reps chars).length,
        ((computeOffsetsRaw reps chars).get ⟨i, hi⟩).end_offset ≤ n)
    ∧ (∀ k, k < n → ∃ i, ∃ hi : i < (computeOffsetsRaw reps chars).length,
        ((computeOffsetsRaw reps chars).get ⟨i, hi⟩).start_offset ≤ k
        ∧ k < ((computeOffsetsRaw reps chars).get ⟨i, hi⟩).end_offset) := by
  refine ⟨computeOffsetsRaw_length reps chars hlen, ?_, ?_, ?_, ?_, ?_⟩
  · intro i hi
    rw [computeOffsetsRaw_get reps chars hlen i hi]
  · intro i hi
    rw [computeOffsetsRaw_get reps chars hlen i hi]
  · intro i hi1
    rw [computeOffsetsRaw_get reps chars hlen i (Nat.lt_of_succ_lt hi1),
        computeOffsetsRaw_get reps chars hlen (i + 1) hi1]
  · intro i hi
    rw [computeOffsetsRaw_get reps chars hlen i hi]
    have h1 : (reps.take (i + 1)).sum + (reps.drop (i + 1)).sum = reps.sum :=
      List.sum_take_add_sum_drop reps (i + 1)
    show (reps.take (i + 1)).sum ≤ n
    omega
  · intro k hk
    obtain ⟨i, hi, h1, h2⟩ := exists_take_interval reps k (by omega)
    have hi2 : i < (computeOffsetsRaw reps chars).length := by
      rw [computeOffsetsRaw_length reps chars hlen]
      exact hi
    refine ⟨i, hi2, ?_, ?_⟩
    · rw [computeOffsetsRaw_get reps chars hlen i hi2]
      exact h1
    · rw [computeOffsetsRaw_get reps chars hlen i hi2]
      exact h2

/-- C4 witness: the offset structure instantiated on the concrete run
sequence of counts `[2,1,2]` over symbols `["a","b","c"]`. -/
theorem computeOffsetsRaw_structure_witness :
    (computeOffsetsRaw [2,1,2] ["a","b","c"]).length = 3
    ∧ (∃ i, ∃ hi : i < (computeOffsetsRaw [2,1,2] ["a","b","c"]).length,
        ((computeOffsetsRaw [2,1,2] ["a","b","c"]).get ⟨i, hi⟩).start_offset ≤ 3
        ∧ 3 < ((computeOffsetsRaw [2,1,2] ["a","b","c"]).get ⟨i, hi⟩).end_offset) :=
  ⟨(computeOffsetsRaw_structure [2,1,2] ["a","b","c"] 5 (by decide) (by decide)).1,
   (computeOffsetsRaw_structure [2,1,2] ["a","b","c"] 5 (by decide)
      (by decide)).2.2.2.2.2 3 (by decide)⟩

/-- C5: blank suppression removes exactly the offset entries whose symbol is
the blank token, strictly after offset computation: the result is a sublist
of the raw offsets, every raw entry with a non-blank symbol is retained with
its original start and end offsets, and every retained entry is non-blank. -/
theorem computeOffsets_blank_filter (reps : List Nat) (chars : List String)
    (blank : String) :
    computeOffsets reps chars blank
      = (computeOffsetsRaw reps chars).filter (fun o => o.char != blank)
    ∧ (computeOffsets reps chars blank).Sublist (computeOffsetsRaw reps chars)
    ∧ (∀ o ∈ computeOffsetsRaw reps chars,
        (o ∈ computeOffsets reps chars blank ↔ o.char ≠ blank))
    ∧ (∀ o ∈ computeOffsets reps chars blank, o.char ≠ blank) := by
  refine ⟨rfl, List.filter_sublist _, ?_, ?_⟩
  · intro o ho
    constructor
    · intro h2
      have h3 := (List.mem_filter.mp h2).2
      simpa using h3
    · intro hne
      exact List.mem_filter.mpr ⟨ho, by simpa using hne⟩
  · intro o ho
    have h3 := (List.mem_filter.mp ho).2
    simpa using h3

/-- C5 witness: on counts `[1,2]` over symbols `["<pad>","x"]`, the non-blank
entry `(x,1,3)` keeps its pre-filter offsets and the blank entry is gone. -/
theorem computeOffsets_blank_filter_witness :
    (⟨"x", 1, 3⟩ : CharOffset) ∈ computeOffsetsRaw [1,2] ["<pad>","x"]
    ∧ (⟨"x", 1, 3⟩ : CharOffset) ∈ computeOffsets [1,2] ["<pad>","x"] "<pad>"
    ∧ (⟨"<pad>", 0, 1⟩ : CharOffset) ∉ computeOffsets [1,2] ["<pad>","x"] "<pad>" :=
  ⟨by decide,
   ((computeOffsets_blank_filter [1,2] ["<pad>","x"] "<pad>").2.2.1 ⟨"x", 1, 3⟩
      (by decide)).mpr (by decide),
   fun hmem =>
     ((computeOffsets_blank_filter [1,2] ["<pad>","x"] "<pad>").2.2.2 ⟨"<pad>", 0, 1⟩
        hmem) rfl⟩

/-- Helper: the symbols of the raw offsets are exactly the run symbols when
the symbol and count lists have equal length. -/
theorem computeOffsetsRaw_map_char (reps : List Nat) (chars : List String)
    (hlen : chars.length = reps.length) :
    (computeOffsetsRaw reps chars).map (·.char) = chars := by
  apply List.ext_getElem
  · rw [List.length_map, computeOffsetsRaw_length reps chars hlen, hlen]
  · intro i h1 h2
    rw [List.getElem_map]
    have h3 : i < (computeOffsetsRaw reps chars).length := by
      rw [List.length_map] at h1
      exact h1
    have := computeOffsetsRaw_get reps chars hlen i h3
    simp only [List.get_eq_getElem] at this
    rw [this]

/-- Helper: filtering offsets on a symbol predicate keeps as many entries as
filtering the symbol list itself. -/
theorem filter_char_length (l : List CharOffset) (pad : String) :
    (l.filter (fun o => o.char != pad)).length
      = ((l.map (·.char)).filter (fun c => c != pad)).length := by
  induction l with
  | nil => rfl
  | cons o rest ih =>
    by_cases h : o.char = pad
    · simp [List.filter_cons, h, ih]
    · simp [List.filter_cons, h, ih]

/-- Helper: the filtered offset list and the processed symbol list always
have equal length. -/
theorem computeOffsets_length_eq (cfg : Config) (reps : List Nat)
    (chars : List String) (hlen : chars.length = reps.length) :
    (computeOffsets reps chars cfg.pad_token).length
      = (processedChars cfg chars).length := by
  unfold computeOffsets processedChars
  rw [filter_char_length, computeOffsetsRaw_map_char reps chars hlen, List.length_map]

/-- Helper: the collapser emits as many symbols as counts. -/
theorem collapse_length_eq (g : Bool) (tokens : List String) :
    (collapse g tokens).1.length = (collapse g tokens).2.length := by
  cases g <;> simp [collapse]

/-- C2: for every token sequence and flag setting, the filtered character
offsets and the processed symbols have equal length, so
`convert_tokens_to_string` never takes the `ValueError` branch. -/
theorem convertTokensToString_no_error (cfg : Config) (tokens : List String)
    (group_tokens spaces_between_special_tokens output_char_offsets
      output_word_offsets : Bool) :
    (computeOffsets (collapse group_tokens tokens).2 (collapse group_tokens tokens).1
        cfg.pad_token).length
      = (processedChars cfg (collapse group_tokens tokens).1).length
    ∧ ∃ r, convertTokensToString cfg tokens group_tokens spaces_between_special_tokens
        output_char_offsets output_word_offsets = Except.ok r := by
  have hkey := computeOffsets_length_eq cfg (collapse group_tokens tokens).2
    (collapse group_tokens tokens).1 (collapse_length_eq group_tokens tokens)
  refine ⟨hkey, ?_⟩
  unfold convertTokensToString
  by_cases h0 : tokens.length = 0
  · rw [if_pos h0]
    exact ⟨_, rfl⟩
  · rw [if_neg h0]
    by_cases hoo : (output_char_offsets || output_word_offsets) = true
    · simp only [hoo, if_true]
      rw [if_neg (not_not_intro hkey)]
      exact ⟨_, rfl⟩
    · simp only [hoo, if_false]
      exact ⟨_, rfl⟩

/-- Helper: `String.join` of a cons. -/
theorem string_join_cons (a : String) (l : List String) :
    String.join (a :: l) = a ++ String.join l := by
  apply String.ext
  simp [String.join_eq, String.data_append]

/-- Helper: appending to a non-empty string stays non-empty. -/
theorem string_ne_empty_append (a b : String) (ha : a ≠ "") : a ++ b ≠ "" := by
  intro h
  apply ha
  apply String.ext
  have h2 : a.data ++ b.data = [] := by
    simpa [String.data_append] using congrArg String.data h
  have h3 : a.data = [] := (List.append_eq_nil.mp h2).1
  simp [h3]

/-- End offset of the last entry of a chunk, with a fallback for the empty
chunk. -/
def lastEnd (e : Nat) (l : List CharOffset) : Nat :=
  ((l.getLast?).map (·.end_offset)).getD e

/-- Helper: `String.join` of the empty list. -/
theorem string_join_nil : String.join [] = "" := rfl

/-- Helper: the fallback of `getD` over the last entry of a non-empty list
is irrelevant. -/
theorem getLastD_map_irrel (f : CharOffset → Nat) (u : CharOffset)
    (t2 : List CharOffset) (a b : Nat) :
    (Option.map f (u :: t2).getLast?).getD a
      = (Option.map f (u :: t2).getLast?).getD b := by
  induction t2 generalizing u with
  | nil => rfl
  | cons v t3 ih =>
    rw [List.getLast?_cons_cons]
    exact ih v

/-- Helper: `lastEnd` of a cons shifts the fallback to the head entry. -/
theorem lastEnd_cons (e : Nat) (o : CharOffset) (t : List CharOffset) :
    lastEnd e (o :: t) = lastEnd o.end_offset t := by
  cases t with
  | nil => rfl
  | cons u t2 =>
    simp only [lastEnd, List.getLast?_cons_cons]
    exact getLastD_map_irrel _ u t2 e o.end_offset

/-- Helper: the word offset of a non-empty chunk. -/
theorem chunkWord_cons (o : CharOffset) (t : List CharOffset) :
    chunkWord (o :: t)
      = ⟨o.char ++ String.join (t.map (·.char)), o.start_offset,
         lastEnd o.end_offset t⟩ := by
  unfold chunkWord
  simp only [WordOffset.mk.injEq]
  refine ⟨?_, rfl, ?_⟩
  · rw [List.map_cons, string_join_cons]
  · cases t with
    | nil => rfl
    | cons u t2 =>
      simp only [lastEnd, List.getLast?_cons_cons]
      exact getLastD_map_irrel _ u t2 0 o.end_offset

/-- Helper: behaviour of the `_get_word_offsets` fold from each of the two
scan states.  From the `"SPACE"` state the pending word, start and end are
irrelevant and the flushed result is the chunk words; from the `"WORD"`
state the pending word is first extended by the current chunk. -/
theorem wordFold_spec (d : String) (offsets : List CharOffset) :
    (∀ (acc : List WordOffset) (w : String) (s e : Nat),
      finalizeWords (offsets.foldl (wordStep d) ⟨acc, "SPACE", w, s, e⟩)
        = acc ++ (splitChunks d offsets).map chunkWord)
    ∧ (∀ (acc : List WordOffset) (w : String) (s e : Nat),
      finalizeWords (offsets.foldl (wordStep d) ⟨acc, "WORD", w, s, e⟩)
        = acc ++ ⟨w ++ String.join ((offsets.takeWhile (fun x => x.char != d)).map (·.char)),
                  s, lastEnd e (offsets.takeWhile (fun x => x.char != d))⟩
            :: (splitChunks d (offsets.dropWhile (fun x => x.char != d))).map chunkWord) := by
  induction offsets with
  | nil =>
    constructor
    · intro acc w s e
      simp [finalizeWords, splitChunks]
    · intro acc w s e
      simp [finalizeWords, splitChunks, lastEnd, string_join_nil, String.append_empty]
  | cons o rest ih =>
    constructor
    · intro acc w s e
      by_cases hc : o.char = d
      · have hstep : wordStep d ⟨acc, "SPACE", w, s, e⟩ o
            = ⟨acc, "SPACE", w ++ o.char, s, o.end_offset⟩ := by
          simp [wordStep, hc]
        rw [List.foldl_cons, hstep, ih.1]
        rw [splitChunks, if_pos hc]
      · have hstep : wordStep d ⟨acc, "SPACE", w, s, e⟩ o
            = ⟨acc, "WORD", o.char, o.start_offset, o.end_offset⟩ := by
          simp [wordStep, hc]
        rw [List.foldl_cons, hstep, ih.2]
        rw [splitChunks, if_neg hc]
        rw [List.map_cons, chunkWord_cons]
    · intro acc w s e
      by_cases hc : o.char = d
      · have hstep : wordStep d ⟨acc, "WORD", w, s, e⟩ o
            = ⟨acc ++ [⟨w, s, e⟩], "SPACE", w, s, e⟩ := by
          simp [wordStep, hc]
        rw [List.foldl_cons, hstep, ih.1]
        have ht : (o :: rest).takeWhile (fun x => x.char != d) = [] := by
          rw [List.takeWhile_cons, if_neg (by simp [hc])]
        have hd : (o :: rest).dropWhile (fun x => x.char != d) = o :: rest := by
          rw [List.dropWhile_cons, if_neg (by simp [hc])]
        rw [ht, hd]
        rw [splitChunks, if_pos hc]
        simp [lastEnd, string_join_nil, String.append_empty]
      · have hstep : wordStep d ⟨acc, "WORD", w, s, e⟩ o
            = ⟨acc, "WORD", w ++ o.char, s, o.end_offset⟩ := by
          simp [wordStep, hc]
        rw [List.foldl_cons, hstep, ih.2]
        have ht : (o :: rest).takeWhile (fun x => x.char != d)
            = o :: rest.takeWhile (fun x => x.char != d) := by
          rw [List.takeWhile_cons, if_pos (by simp [hc])]
        have hd : (o :: rest).dropWhile (fun x => x.char != d)
            = rest.dropWhile (fun x => x.char != d) := by
          rw [List.dropWhile_cons, if_pos (by simp [hc])]
        rw [ht, hd, List.map_cons, string_join_cons, lastEnd_cons,
            ← String.append_assoc]

/-- Helper: the word aggregator equals the chunk-wise specification. -/
theorem getWordOffsets_eq_chunks (offsets : List CharOffset) (d : String) :
    getWordOffsets offsets d = (splitChunks d offsets).map chunkWord := by
  have h := (wordFold_spec d offsets).1 [] "" 0 0
  simpa [getWordOffsets] using h

/-- Helper: every chunk is non-empty and consists of non-delimiter entries
of the input, in particular chunk entries are input entries. -/
theorem splitChunks_spec (d : String) :
    ∀ (offsets : List CharOffset), ∀ c ∈ splitChunks d offsets,
      c ≠ [] ∧ ∀ o ∈ c, o.char ≠ d ∧ o ∈ offsets := by
  intro offsets
  induction offsets using splitChunks.induct d with
  | case1 => simp [splitChunks]
  | case2 o rest hc ih =>
    rw [splitChunks, if_pos hc]
    intro c hmem
    obtain ⟨h1, h2⟩ := ih c hmem
    exact ⟨h1, fun o2 ho2 => ⟨(h2 o2 ho2).1, List.mem_cons_of_mem _ (h2 o2 ho2).2⟩⟩
  | case3 o rest hc ih =>
    rw [splitChunks, if_neg hc]
    intro c hmem
    rcases List.mem_cons.mp hmem with hceq | hmem2
    · subst hceq
      refine ⟨by simp, ?_⟩
      intro o2 ho2
      rcases List.mem_cons.mp ho2 with ho2 | ho2
      · subst ho2
        exact ⟨hc, List.mem_cons_self _ _⟩
      · have hp := List.mem_takeWhile_imp ho2
        have hm : o2 ∈ rest := (List.takeWhile_sublist _).subset ho2
        exact ⟨by simpa using hp, List.mem_cons_of_mem _ hm⟩
    · obtain ⟨h1, h2⟩ := ih c hmem2
      refine ⟨h1, ?_⟩
      intro o2 ho2
      have hm : o2 ∈ rest.dropWhile (fun x => x.char != d) := (h2 o2 ho2).2
      exact ⟨(h2 o2 ho2).1,
        List.mem_cons_of_mem _ ((List.dropWhile_sublist _).subset hm)⟩

/-- C7 counterexample: on a character offset whose symbol is the empty
string (which is not the delimiter), the aggregator emits a word offset
whose word string is empty, refuting the claim that every emitted word is
non-empty. -/
theorem getWordOffsets_empty_word_counterexample :
    getWordOffsets [⟨"", 0, 1⟩] " " = [⟨"", 0, 1⟩]
    ∧ ¬ (∀ wo ∈ getWordOffsets [⟨"", 0, 1⟩] " ", wo.word ≠ "") := by
  constructor
  · decide
  · intro h
    exact h ⟨"", 0, 1⟩ (by decide) rfl

/-- C7 (amended): the word aggregator emits exactly one word offset per
maximal run of contiguous non-delimiter character offsets (a pending word is
flushed at end of input): each word is the concatenation of the symbols of
its constituents, its start offset is the first constituent's start offset
and its end offset the last constituent's end offset; constituents are
non-delimiter entries of the input, and when every non-delimiter symbol of
the input is non-empty every emitted word string is non-empty. -/
theorem getWordOffsets_spec (offsets : List CharOffset) (d : String) :
    getWordOffsets offsets d = (splitChunks d offsets).map chunkWord
    ∧ (∀ c ∈ splitChunks d offsets, c ≠ [] ∧ ∀ o ∈ c, o.char ≠ d ∧ o ∈ offsets)
    ∧ ((∀ o ∈ offsets, o.char ≠ d → o.char ≠ "") →
        ∀ wo ∈ getWordOffsets offsets d, wo.word ≠ "") := by
  refine ⟨getWordOffsets_eq_chunks offsets d, splitChunks_spec d offsets, ?_⟩
  intro hne wo hwo
  rw [getWordOffsets_eq_chunks offsets d] at hwo
  obtain ⟨c, hc, hcw⟩ := List.mem_map.mp hwo
  obtain ⟨hc1, hc2⟩ := splitChunks_spec d offsets c hc
  cases c with
  | nil => exact absurd rfl hc1
  | cons o t =>
    rw [chunkWord_cons] at hcw
    rw [← hcw]
    have ho := hc2 o (List.mem_cons_self _ _)
    exact string_ne_empty_append _ _ (hne o ho.2 ho.1)

/-- C7 witness: the aggregator invariants instantiated on the offsets of
symbols `a`, delimiter, `bc`. -/
theorem getWordOffsets_spec_witness :
    getWordOffsets [⟨"a", 0, 2⟩, ⟨" ", 2, 3⟩, ⟨"bc", 3, 5⟩] " "
      = (splitChunks " " [⟨"a", 0, 2⟩, ⟨" ", 2, 3⟩, ⟨"bc", 3, 5⟩]).map chunkWord
    ∧ (⟨"", 9, 9⟩ : WordOffset)
        ∉ getWordOffsets [⟨"a", 0, 2⟩, ⟨" ", 2, 3⟩, ⟨"bc", 3, 5⟩] " " := by
  refine ⟨(getWordOffsets_spec [⟨"a", 0, 2⟩, ⟨" ", 2, 3⟩, ⟨"bc", 3, 5⟩] " ").1, ?_⟩
  intro hmem
  exact (getWordOffsets_spec [⟨"a", 0, 2⟩, ⟨" ", 2, 3⟩, ⟨"bc", 3, 5⟩] " ").2.2
    (by decide) ⟨"", 9, 9⟩ hmem rfl

/-- Helper: unfolding equation of `symSplit` on the empty list. -/
theorem symSplit_nil (d : String) : symSplit d [] = [] := by rw [symSplit]

/-- Helper: unfolding equation of `symSplit` on a cons. -/
theorem symSplit_cons (d s : String) (rest : List String) :
    symSplit d (s :: rest) = if s = d then symSplit d rest
      else (s :: rest.takeWhile (fun x => x != d)) ::
        symSplit d (rest.dropWhile (fun x => x != d)) := by
  by_cases h : s = d
  · subst h
    rw [symSplit]
  · rw [if_neg h, symSplit.eq_def]
    simp [h]

/-- Helper: the symbol-level chunks are the symbol images of the offset-level
chunks. -/
theorem symSplit_map (d : String) (offsets : List CharOffset) :
    (splitChunks d offsets).map (List.map (·.char))
      = symSplit d (offsets.map (·.char)) := by
  induction offsets using splitChunks.induct d with
  | case1 => simp [splitChunks, symSplit_nil]
  | case2 o rest hc ih =>
    show (splitChunks d (o :: rest)).map (List.map (·.char))
      = symSplit d (o.char :: rest.map (·.char))
    rw [splitChunks, if_pos hc, symSplit_cons, if_pos hc]
    exact ih
  | case3 o rest hc ih =>
    show (splitChunks d (o :: rest)).map (List.map (·.char))
      = symSplit d (o.char :: rest.map (·.char))
    rw [splitChunks, if_neg hc, symSplit_cons, if_neg hc]
    rw [List.takeWhile_map, List.dropWhile_map]
    simp only [List.map_cons]
    rw [ih]
    rfl

/-- Helper: symbol-level chunks are non-empty and consist of non-delimiter
symbols. -/
theorem symSplit_spec (d : String) :
    ∀ (syms : List String), ∀ c ∈ symSplit d syms, c ≠ [] ∧ ∀ x ∈ c, x ≠ d := by
  intro syms
  induction syms using symSplit.induct d with
  | case1 => simp [symSplit_nil]
  | case2 rest ih =>
    rw [symSplit_cons, if_pos rfl]
    exact ih
  | case3 t rest ht ih =>
    rw [symSplit_cons, if_neg ht]
    intro c hmem
    rcases List.mem_cons.mp hmem with hceq | hmem2
    · subst hceq
      refine ⟨by simp, ?_⟩
      intro x hx
      rcases List.mem_cons.mp hx with hx | hx
      · subst hx; exact ht
      · simpa using List.mem_takeWhile_imp hx
    · exact ih c hmem2

/-- Helper: the symbol-level chunks are empty exactly when every symbol is
the delimiter. -/
theorem symSplit_eq_nil_iff (d : String) (syms : List String) :
    symSplit d syms = [] ↔ ∀ x ∈ syms, x = d := by
  induction syms using symSplit.induct d with
  | case1 => simp [symSplit_nil]
  | case2 rest ih =>
    rw [symSplit_cons, if_pos rfl]
    simp only [List.mem_cons]
    constructor
    · intro h x hx
      rcases hx with hx | hx
      · exact hx
      · exact ih.mp h x hx
    · intro h
      exact ih.mpr (fun x hx => h x (Or.inr hx))
  | case3 t rest ht ih =>
    rw [symSplit_cons, if_neg ht]
    simp [ht]

/-- Helper: the last entry of a non-empty all-delimiter list is the
delimiter. -/
theorem getLast_all_delim (d : String) (l : List String) (hne : l ≠ [])
    (hall : ∀ x ∈ l, x = d) : l.getLast? = some d := by
  induction l with
  | nil => exact absurd rfl hne
  | cons x rest ih =>
    cases rest with
    | nil => simpa using hall x (List.mem_cons_self _ _)
    | cons y r2 =>
      rw [List.getLast?_cons_cons]
      exact ih (by simp) (fun z hz => hall z (List.mem_cons_of_mem _ hz))

/-- Helper: `List.intercalate` over a singleton. -/
theorem list_intercalate_singleton (d : String) (c : List String) :
    List.intercalate [d] [c] = c := by
  simp [List.intercalate, List.intersperse]

/-- Helper: `List.intercalate` over at least two chunks. -/
theorem list_intercalate_cons2 (d : String) (c c2 : List String)
    (cs : List (List String)) :
    List.intercalate [d] (c :: c2 :: cs) = c ++ d :: List.intercalate [d] (c2 :: cs) := by
  simp [List.intercalate, List.intersperse_cons_cons]

/-- Helper: `List.intercalate` absorbs a cons into the first chunk. -/
theorem list_intercalate_cons_head (d : String) (x : String) (c1 : List String)
    (cs : List (List String)) :
    List.intercalate [d] ((x :: c1) :: cs) = x :: List.intercalate [d] (c1 :: cs) := by
  cases cs with
  | nil => rw [list_intercalate_singleton, list_intercalate_singleton]
  | cons c2 cs2 =>
    rw [list_intercalate_cons2, list_intercalate_cons2]
    rfl

/-- Helper: intercalation of a non-empty first chunk is non-empty. -/
theorem list_intercalate_ne_nil (d : String) (c : List String)
    (cs : List (List String)) (hc : c ≠ []) :
    List.intercalate [d] (c :: cs) ≠ [] := by
  obtain ⟨x, c1, rfl⟩ := List.exists_cons_of_ne_nil hc
  rw [list_intercalate_cons_head]
  simp

/-- Helper: the last element of intercalated non-empty non-delimiter chunks
is not the delimiter. -/
theorem list_intercalate_getLast (d : String) :
    ∀ (cs : List (List String)), cs ≠ [] →
      (∀ c ∈ cs, c ≠ [] ∧ ∀ x ∈ c, x ≠ d) →
      ∃ z, (List.intercalate [d] cs).getLast? = some z ∧ z ≠ d := by
  intro cs
  induction cs with
  | nil => intro h; exact absurd rfl h
  | cons c cs2 ih =>
    intro _ hprop
    cases cs2 with
    | nil =>
      obtain ⟨hc, hx⟩ := hprop c (List.mem_cons_self _ _)
      rw [list_intercalate_singleton]
      refine ⟨c.getLast hc, List.getLast?_eq_getLast c hc, hx _ (List.getLast_mem hc)⟩
    | cons c2 cs3 =>
      obtain ⟨z, hz, hzd⟩ := ih (by simp)
        (fun c3 h3 => hprop c3 (List.mem_cons_of_mem _ h3))
      refine ⟨z, ?_, hzd⟩
      rw [list_intercalate_cons2]
      rw [List.getLast?_append]
      have hne3 : List.intercalate [d] (c2 :: cs3) ≠ [] :=
        list_intercalate_ne_nil d c2 cs3 (hprop c2 (by simp)).1
      obtain ⟨w, ws, hw⟩ := List.exists_cons_of_ne_nil hne3
      rw [hw] at hz ⊢
      rw [List.getLast?_cons_cons, hz]
      rfl

/-- Helper: characterization of delimiter-run collapsing.  If every symbol is
the delimiter the collapse is a single delimiter (or empty); otherwise it is
the chunks interleaved with single delimiters, with one leading/trailing
delimiter when the sequence starts/ends with one. -/
theorem collapseDelims_spec (d : String) :
    ∀ (syms : List String),
      (symSplit d syms = [] →
        collapseDelims d syms = if syms.isEmpty then [] else [d])
      ∧ (symSplit d syms ≠ [] →
        collapseDelims d syms =
          (if syms.head? = some d then [d] else [])
            ++ List.intercalate [d] (symSplit d syms)
            ++ (if syms.getLast? = some d then [d] else [])) := by
  intro syms
  induction syms using collapseDelims.induct d with
  | case1 =>
    constructor
    · intro _
      rfl
    · intro h
      exact absurd (symSplit_nil d) h
  | case2 x =>
    by_cases hx : x = d
    · constructor
      · intro _
        simp [collapseDelims, hx]
      · intro h
        rw [symSplit_cons, if_pos hx, symSplit_nil] at h
        exact absurd rfl h
    · constructor
      · intro h
        rw [symSplit_cons, if_neg hx] at h
        exact absurd h (by simp)
      · intro _
        rw [symSplit_cons, if_neg hx]
        simp only [List.takeWhile_nil, List.dropWhile_nil]
        rw [symSplit_nil, list_intercalate_singleton]
        have h1 : ([x] : List String).head? = some x := rfl
        have h2 : ([x] : List String).getLast? = some x := rfl
        rw [h1, h2, if_neg (by simpa using hx)]
        simp [collapseDelims]
  | case3 x y rest hxy ih =>
    obtain ⟨hx, hy⟩ := hxy
    have hcc : collapseDelims d (x :: y :: rest) = collapseDelims d (y :: rest) := by
      rw [collapseDelims, if_pos ⟨hx, hy⟩]
    have hss : symSplit d (x :: y :: rest) = symSplit d (y :: rest) := by
      rw [symSplit_cons, if_pos hx]
    have hh2 : (x :: y :: rest).head? = some d := by simp [hx]
    have hh1 : (y :: rest).head? = some d := by simp [hy]
    constructor
    · intro hS
      rw [hss] at hS
      rw [hcc, (ih.1 hS)]
      simp
    · intro hS
      rw [hss] at hS
      rw [hcc, (ih.2 hS), hss, List.getLast?_cons_cons, hh1, hh2]
  | case4 x y rest hxy ih =>
    have hcc : collapseDelims d (x :: y :: rest) = x :: collapseDelims d (y :: rest) := by
      rw [collapseDelims, if_neg hxy]
    by_cases hx : x = d
    · have hy : y ≠ d := fun hyd => hxy ⟨hx, hyd⟩
      have hss : symSplit d (x :: y :: rest) = symSplit d (y :: rest) := by
        rw [symSplit_cons, if_pos hx]
      have hne : symSplit d (y :: rest) ≠ [] := by
        rw [symSplit_cons, if_neg hy]
        simp
      constructor
      · intro hS
        rw [hss] at hS
        exact absurd hS hne
      · intro _
        rw [hcc, (ih.2 hne), hss, List.getLast?_cons_cons]
        have hh1 : (y :: rest).head? = some y := rfl
        have hh2 : (x :: y :: rest).head? = some d := by simp [hx]
        rw [hh1, hh2, if_neg (by simp [hy]), if_pos rfl]
        simp [hx]
    · have hss : symSplit d (x :: y :: rest) =
          (x :: (y :: rest).takeWhile (fun z => z != d)) ::
            symSplit d ((y :: rest).dropWhile (fun z => z != d)) := by
        rw [symSplit_cons, if_neg hx]
      constructor
      · intro hS
        rw [hss] at hS
        exact absurd hS (by simp)
      · intro _
        have hh2 : (x :: y :: rest).head? = some x := rfl
        rw [List.getLast?_cons_cons, hh2, if_neg (by simp [hx])]
        by_cases hy : y = d
        · have ht1 : (y :: rest).takeWhile (fun z => z != d) = [] := by
            rw [List.takeWhile_cons]
            simp [hy]
          have hd1 : (y :: rest).dropWhile (fun z => z != d) = y :: rest := by
            rw [List.dropWhile_cons]
            simp [hy]
          rw [hss, ht1, hd1]
          by_cases hS2 : symSplit d (y :: rest) = []
          · rw [hS2, hcc, (ih.1 hS2)]
            have hall : ∀ z ∈ y :: rest, z = d := (symSplit_eq_nil_iff d _).mp hS2
            have hlast : (y :: rest).getLast? = some d :=
              getLast_all_delim d _ (by simp) hall
            rw [hlast, if_pos rfl, list_intercalate_singleton]
            simp
          · rw [hcc, (ih.2 hS2)]
            have hh1 : (y :: rest).head? = some y := rfl
            rw [hh1, if_pos (by simp [hy])]
            obtain ⟨c2, cs3, hw⟩ := List.exists_cons_of_ne_nil hS2
            rw [hw, list_intercalate_cons_head, list_intercalate_cons2]
            simp
        · have ht1 : (y :: rest).takeWhile (fun z => z != d)
              = y :: rest.takeWhile (fun z => z != d) := by
            rw [List.takeWhile_cons]
            simp [hy]
          have hd1 : (y :: rest).dropWhile (fun z => z != d)
              = rest.dropWhile (fun z => z != d) := by
            rw [List.dropWhile_cons]
            simp [hy]
          have hss2 : symSplit d (y :: rest) =
              (y :: rest.takeWhile (fun z => z != d)) ::
                symSplit d (rest.dropWhile (fun z => z != d)) := by
            rw [symSplit_cons, if_neg hy]
          have hne2 : symSplit d (y :: rest) ≠ [] := by
            rw [hss2]
            simp
          rw [hss, ht1, hd1, list_intercalate_cons_head, ← hss2]
          rw [hcc, (ih.2 hne2)]
          have hh1 : (y :: rest).head? = some y := rfl
          rw [hh1, if_neg (by simp [hy])]
          simp

/-- Helper: a list ending in a non-delimiter element is unchanged by
`rdropWhile`. -/
theorem rdropWhile_of_last_ne (d : String) (l : List String)
    (hlast : ∃ z, l.getLast? = some z ∧ z ≠ d) :
    List.rdropWhile (fun s => s == d) l = l := by
  obtain ⟨z, hz, hzd⟩ := hlast
  apply List.rdropWhile_eq_self_iff.mpr
  intro hl
  have h2 : l.getLast? = some (l.getLast hl) := List.getLast?_eq_getLast l hl
  rw [hz] at h2
  have h3 : z = l.getLast hl := by
    injection h2
  rw [← h3]
  simp [hzd]

/-- Helper: stripping a leading and a trailing delimiter (each possibly
absent) from a delimiter-interleaved chunk list recovers the chunk list. -/
theorem strip_delims_core (d h : String) (hhd : h ≠ d) (It : List String)
    (pre tra : List String) (hpre : pre = [] ∨ pre = [d])
    (htra : tra = [] ∨ tra = [d])
    (hlast : ∃ z, (h :: It).getLast? = some z ∧ z ≠ d) :
    List.rdropWhile (fun s => s == d)
      (List.dropWhile (fun s => s == d) (pre ++ (h :: It) ++ tra)) = h :: It := by
  have hdrop : List.dropWhile (fun s => s == d) (pre ++ (h :: It) ++ tra)
      = (h :: It) ++ tra := by
    rcases hpre with h1 | h1 <;> subst h1
    · simp only [List.nil_append, List.cons_append]
      rw [List.dropWhile_cons]
      simp [hhd]
    · simp only [List.cons_append, List.nil_append]
      rw [List.dropWhile_cons, if_pos (by simp), List.dropWhile_cons]
      simp [hhd]
  rw [hdrop]
  rcases htra with h2 | h2 <;> subst h2
  · rw [List.append_nil]
    exact rdropWhile_of_last_ne d _ hlast
  · rw [List.rdropWhile_concat, if_pos (by simp)]
    exact rdropWhile_of_last_ne d _ hlast

/-- Helper: whitespace normalization of a symbol sequence equals its
non-delimiter chunks interleaved with single delimiters. -/
theorem normalizeSyms_eq_intercalate (d : String) (syms : List String) :
    normalizeSyms d syms = List.intercalate [d] (symSplit d syms) := by
  by_cases hS : symSplit d syms = []
  · rw [hS]
    have hC := (collapseDelims_spec d syms).1 hS
    unfold normalizeSyms
    rw [hC]
    by_cases hE : syms.isEmpty
    · rw [if_pos hE]
      simp [List.intercalate, List.rdropWhile]
    · rw [if_neg hE]
      rw [List.dropWhile_cons]
      simp [List.intercalate, List.rdropWhile]
  · have hC := (collapseDelims_spec d syms).2 hS
    unfold normalizeSyms
    rw [hC]
    obtain ⟨c0, cs, hcs⟩ := List.exists_cons_of_ne_nil hS
    have hc0 := symSplit_spec d syms c0 (by rw [hcs]; exact List.mem_cons_self _ _)
    obtain ⟨h, t, hht⟩ := List.exists_cons_of_ne_nil hc0.1
    have hhd : h ≠ d := hc0.2 h (by rw [hht]; exact List.mem_cons_self _ _)
    have hI : List.intercalate [d] (symSplit d syms)
        = h :: List.intercalate [d] (t :: cs) := by
      rw [hcs, hht, list_intercalate_cons_head]
    have hlast0 := list_intercalate_getLast d (symSplit d syms)
      (by rw [hcs]; simp) (symSplit_spec d syms)
    rw [hI] at hlast0
    rw [hI]
    refine strip_delims_core d h hhd (List.intercalate [d] (t :: cs)) _ _ ?_ ?_ hlast0
    · by_cases hh : syms.head? = some d
      · rw [if_pos hh]
        exact Or.inr rfl
      · rw [if_neg hh]
        exact Or.inl rfl
    · by_cases hl : syms.getLast? = some d
      · rw [if_pos hl]
        exact Or.inr rfl
      · rw [if_neg hl]
        exact Or.inl rfl

/-- Helper: `String.join` distributes over list append. -/
theorem string_join_append (l1 l2 : List String) :
    String.join (l1 ++ l2) = String.join l1 ++ String.join l2 := by
  apply String.ext
  simp [String.join_eq, String.data_append]

/-- Helper: closed form of the accumulator loop of `String.intercalate`. -/
theorem string_intercalate_go_spec (s : String) :
    ∀ (as : List String) (acc : String),
      String.intercalate.go acc s as
        = acc ++ String.join (as.map (fun a => s ++ a)) := by
  intro as
  induction as with
  | nil =>
    intro acc
    rw [String.intercalate.go]
    rw [List.map_nil, string_join_nil, String.append_empty]
  | cons a as2 ih =>
    intro acc
    rw [String.intercalate.go, ih, List.map_cons, string_join_cons]
    simp [String.append_assoc]

/-- Helper: `String.intercalate` over at least two strings. -/
theorem string_intercalate_cons_cons (s a b : String) (l : List String) :
    String.intercalate s (a :: b :: l) = a ++ s ++ String.intercalate s (b :: l) := by
  show String.intercalate.go a s (b :: l) = a ++ s ++ String.intercalate.go b s l
  rw [string_intercalate_go_spec s (b :: l) a, string_intercalate_go_spec s l b,
      List.map_cons, string_join_cons]
  simp [String.append_assoc]

/-- Helper: joining chunkwise and intercalating the joins equals joining the
delimiter-interleaved chunk list. -/
theorem string_intercalate_join (sep : String) :
    ∀ (cs : List (List String)),
      String.intercalate sep (cs.map String.join)
        = String.join (List.intercalate [sep] cs) := by
  intro cs
  induction cs with
  | nil => rfl
  | cons c cs2 ih =>
    cases cs2 with
    | nil =>
      rw [list_intercalate_singleton]
      rfl
    | cons c2 cs3 =>
      have e1 : (c :: c2 :: cs3).map String.join
          = String.join c :: String.join c2 :: cs3.map String.join := rfl
      rw [e1, string_intercalate_cons_cons]
      have e2 : String.join c2 :: cs3.map String.join
          = (c2 :: cs3).map String.join := rfl
      rw [e2, ih, list_intercalate_cons2]
      have e3 : c ++ sep :: List.intercalate [sep] (c2 :: cs3)
          = c ++ ([sep] ++ List.intercalate [sep] (c2 :: cs3)) := by simp
      rw [e3, string_join_append, string_join_append]
      have e4 : String.join [sep] = sep := by
        apply String.ext
        simp [String.join_eq]
      rw [e4]
      simp [String.append_assoc]

/-- C8: for every character-offset sequence, the word fields of the emitted
word offsets, joined by the delimiter, reconstruct the processed symbol
sequence up to whitespace normalization (runs of delimiter symbols collapsed
to one, leading and trailing delimiter symbols removed), joined to a string:
the text-side view of the word aggregator loses only redundant delimiters. -/
theorem wordOffsets_join_reconstructs (offsets : List CharOffset) (d : String) :
    String.intercalate d ((getWordOffsets offsets d).map (·.word))
      = String.join (normalizeSyms d (offsets.map (·.char))) := by
  rw [normalizeSyms_eq_intercalate, getWordOffsets_eq_chunks]
  rw [← symSplit_map]
  rw [List.map_map]
  have e : ((fun w : WordOffset => w.word) ∘ chunkWord)
      = (String.join ∘ List.map (fun o : CharOffset => o.char)) := rfl
  rw [e, ← List.map_map]
  exact string_intercalate_join d _
